import Mathlib

/-!
Verification model for the `when` promise-orchestration layer.

The repository source consists of `function.js` (the lifting layer) and the
core `when.js`. The underlying future primitive (`lib/Promise`) and the
array combinators it carries (`lib/array`: `Promise.all`, `Promise.some`,
`Promise.any`, `Promise.settle`, `Promise.map`, `Promise.reduce`) are
external collaborators that are not part of the source tree here; they are
modelled from the specification and marked as such in doc comments.

A future is represented by its eventual settlement: it is pending forever,
fulfilled with a value, or rejected with a reason. Values and reasons are
untyped in the source language, so both live in one universal value type
`V` that can hold atoms and arrays.
-/

set_option autoImplicit false

namespace When

/-- Universal value type standing for the dynamic values of the host
language: atoms (numbers, functions, opaque objects identified by a tag)
and arrays of values. Rejection reasons and fulfillment values both
inhabit `V`. -/
inductive V where
  | atom (n : Nat)
  | list (xs : List V)

/-- Modelled from the spec: the external future primitive (`lib/Promise`,
not under `src/`). A future either never settles, fulfills with a value of
type `α`, or rejects with a reason (an arbitrary dynamic value `V`). The
model identifies a future with its eventual settlement. -/
inductive Fut (α : Type) where
  | pending
  | fulfilled (v : α)
  | rejected (r : V)

/-- Modelled from the spec: `then(onFulfilled)` with no rejection handler.
A rejection propagates unchanged to the derived future; a pending future
yields a pending future; a fulfilled future feeds its value to the
continuation, whose own settlement becomes the result (thenable
assimilation). -/
def Fut.andThen {α β : Type} : Fut α → (α → Fut β) → Fut β
  | .pending, _ => .pending
  | .rejected r, _ => .rejected r
  | .fulfilled v, k => k v

/-- Modelled from the spec: mapping a fulfilled value, as `then` with a
continuation that returns a bare value. -/
def Fut.mapF {α β : Type} (p : Fut α) (f : α → β) : Fut β :=
  p.andThen (fun v => .fulfilled (f v))

/-- Source `when.js` line 174: `when(promiseOrValue, onFulfilled)` is
`resolve(promiseOrValue).then(onFulfilled)`. Inputs are already modelled
as futures (a bare value is a fulfilled future), so `resolve` is the
identity embedding; with no `onRejected`, a rejection of the input
propagates to the result. Only the two-argument form used by the
combinators is modelled. -/
def when_ {α β : Type} (p : Fut α) (k : α → Fut β) : Fut β :=
  p.andThen k

/-- A user-supplied host function as consumed by the lifting layer: given
a `this` binding and an argument list it either returns a value or throws
a reason synchronously. -/
def UserFn : Type := V → List V → Except V V

/-- Modelled from the spec: the catch behaviour of the primitive `then`:
a synchronous throw inside a continuation becomes a rejection of the
derived future. -/
def exceptToFut (e : Except V V) : Fut V :=
  match e with
  | .error r => .rejected r
  | .ok v => .fulfilled v

/-- Modelled from the spec: `Promise.all` over a concrete array
(`lib/array`, not under `src/`). Fulfills, index-aligned, once every
element fulfills (immediately with `[]` for an empty array); rejects with
the reason of the first rejected element (list order stands for
settlement order); otherwise stays pending. A rejection wins over pending
siblings because a pending element never settles. -/
def futAll : List (Fut V) → Fut (List V)
  | [] => .fulfilled []
  | .rejected r :: _ => .rejected r
  | .pending :: rest =>
    match futAll rest with
    | .rejected r => .rejected r
    | _ => .pending
  | .fulfilled v :: rest => (futAll rest).mapF (fun vs => v :: vs)

/-- Source `when.js` lines 214-218: the `try`/`lift` helper `_apply`:
await all arguments with `Promise.all`, then invoke `func` with the
awaited values and the given `this` binding; the returned future carries
the function result, or its thrown reason as a rejection. -/
def _apply (func : UserFn) (thisArg : V) (args : List (Fut V)) : Fut V :=
  (futAll args).andThen (fun vs => exceptToFut (func thisArg vs))

/-- Source `when.js` lines 193-196: `when.try` / `when.attempt`: call `f`
with the supplied arguments and return a future for the result. -/
def tryCall (f : UserFn) (thisArg : V) (args : List (Fut V)) : Fut V :=
  _apply f thisArg args

/-- Source `when.js` lines 204-208: `when.lift`: the lifted function
forwards its `this` binding and its arguments to `_apply`. -/
def lift (f : UserFn) : V → List (Fut V) → Fut V :=
  fun thisArg args => _apply f thisArg args

/-- Modelled from the spec: the element logic of `Promise.any`
(`lib/array`, not under `src/`), processing settlements in order (list
order stands for settlement order) while accumulating rejection reasons:
fulfills with the first fulfilled value; once every element has rejected,
rejects with the array of all rejection reasons. -/
def futAnyGo : List (Fut V) → List V → Fut V
  | [], rs => .rejected (V.list rs)
  | .fulfilled v :: _, _ => .fulfilled v
  | .rejected r :: rest, rs => futAnyGo rest (rs ++ [r])
  | .pending :: _, _ => .pending

/-- Modelled from the spec: `Promise.any` over a concrete array
(`lib/array`, not under `src/`). -/
def futAny (arr : List (Fut V)) : Fut V :=
  futAnyGo arr []

/-- Outcome descriptor produced by `settle` for one element: a record
tagged with the element's own fulfillment value or rejection reason. -/
inductive SettleDesc where
  | fulfilled (v : V)
  | rejected (r : V)

/-- Modelled from the spec: `Promise.settle` over a concrete array
(`lib/array`, not under `src/`). Never rejects on account of element
outcomes: each settled element becomes an outcome descriptor,
index-aligned; pending only if some element never settles. -/
def futSettle : List (Fut V) → Fut (List SettleDesc)
  | [] => .fulfilled []
  | .pending :: _ => .pending
  | .fulfilled v :: rest => (futSettle rest).mapF (fun ds => .fulfilled v :: ds)
  | .rejected r :: rest => (futSettle rest).mapF (fun ds => .rejected r :: ds)

/-- Modelled from the spec: `Promise.map` over a concrete array
(`lib/array`, not under `src/`): await each element, apply the mapping
function to the awaited value, and aggregate the results as `Promise.all`
does (index-aligned, first failure wins). -/
def futMap (arr : List (Fut V)) (mapFunc : V → Fut V) : Fut (List V) :=
  futAll (arr.map (fun a => a.andThen mapFunc))

/-- Modelled from the spec: `Promise.reduce` (`lib/array`, not under
`src/`): a strictly sequential left fold; each step awaits the previous
accumulator and the current element before invoking the reducer, whose
returned future is awaited in turn. Rejection of the accumulator
short-circuits every later step. The element type is generic because the
composition pipeline folds over an array of functions. -/
def promReduce {β : Type} (arr : List (Fut β)) (f : V → β → Fut V)
    (init : Fut V) : Fut V :=
  arr.foldl (fun acc b => acc.andThen (fun a => b.andThen (fun bv => f a bv))) init

/-- Modelled from the spec: `Promise.reduceRight` (`lib/array`, not under
`src/`): the right-to-left sequential fold, processing the array in
reverse order. -/
def promReduceRight {β : Type} (arr : List (Fut β)) (f : V → β → Fut V)
    (init : Fut V) : Fut V :=
  promReduce arr.reverse f init

/-- A settlement event of one race input: the input fulfilled with a value
or rejected with a reason. A race input collection together with the
order in which its elements settled is represented as the list of events
in settlement order. -/
inductive SEvt where
  | ok (v : V)
  | err (r : V)

/-- Result of running the race logic of `some` over a prefix of the
settlement events: still pending with the accumulated values and reasons,
fulfilled with the collected values, or rejected with the collected
reasons (both in settlement order). -/
inductive SomeRes where
  | pend (vals errs : List V)
  | ful (vals : List V)
  | rej (errs : List V)

/-- Modelled from the spec: the event loop of `Promise.some`
(`lib/array`, not under `src/`): process settlement events in order,
accumulating fulfillment values and rejection reasons; fulfill once
`howMany` values have been collected, reject once `threshold` reasons
have been collected. -/
def someGo (howMany threshold : Nat) :
    List SEvt → List V → List V → SomeRes
  | [], vals, errs => .pend vals errs
  | .ok v :: rest, vals, errs =>
    if vals.length + 1 = howMany then .ful (vals ++ [v])
    else someGo howMany threshold rest (vals ++ [v]) errs
  | .err r :: rest, vals, errs =>
    if errs.length + 1 = threshold then .rej (errs ++ [r])
    else someGo howMany threshold rest vals (errs ++ [r])

/-- Modelled from the spec: `Promise.some(array, howMany)` (`lib/array`,
not under `src/`): `howMany` at most zero fulfills immediately with the
empty array; otherwise the race runs with rejection threshold
`(N - howMany) + 1` over the settlement events of the `N` inputs. -/
def someRun (events : List SEvt) (howMany : Nat) : SomeRes :=
  if howMany = 0 then .ful []
  else someGo howMany (events.length - howMany + 1) events [] []

/-- The settlement of the race as a future: the collected values on
fulfillment, the array of collected reasons on rejection; a race whose
events never trigger either threshold leaves the future pending. -/
def someResToFut : SomeRes → Fut (List V)
  | .pend _ _ => .pending
  | .ful vs => .fulfilled vs
  | .rej rs => .rejected (V.list rs)

/-- Source `when.js` lines 305-307: `all(promises)` resolves the outer
input, then aggregates element-wise with `Promise.all`. -/
def all_ (p : Fut (List (Fut V))) : Fut (List V) :=
  when_ p futAll

/-- Source `when.js` lines 316-318: `join(...promises)` collects its
variadic arguments into a concrete array and applies `all`. -/
def join (args : List (Fut V)) : Fut (List V) :=
  all_ (.fulfilled args)

/-- Source `when.js` lines 293-295: `any(promises)` resolves the outer
input, then races element-wise with `Promise.any`. -/
def any_ (p : Fut (List (Fut V))) : Fut V :=
  when_ p futAny

/-- Source `when.js` lines 277-281: `some(promises, howMany)` resolves
the outer input, then races element-wise with `Promise.some`. The
resolved collection is given together with its settlement order, as the
list of settlement events. -/
def some_ (p : Fut (List SEvt)) (howMany : Nat) : Fut (List V) :=
  when_ p (fun events => someResToFut (someRun events howMany))

/-- Source `when.js` lines 329-331: `settle(promises)` resolves the outer
input, then snapshots element-wise with `Promise.settle`. -/
def settle_ (p : Fut (List (Fut V))) : Fut (List SettleDesc) :=
  when_ p futSettle

/-- Source `when.js` lines 341-345: `map(promises, mapFunc)` resolves the
outer input, then maps element-wise with `Promise.map`. -/
def map_ (p : Fut (List (Fut V))) (mapFunc : V → Fut V) : Fut (List V) :=
  when_ p (fun arr => futMap arr mapFunc)

/-- Source `when.js` lines 358-365: `reduce(promises, f, initialValue)`
resolves the outer input, then folds element-wise with `Promise.reduce`.
The form with an explicit initial value is modelled. -/
def reduce_ (p : Fut (List (Fut V))) (f : V → V → Fut V) (init : Fut V) :
    Fut V :=
  when_ p (fun arr => promReduce arr f init)

/-- Source `when.js` lines 378-385: `reduceRight(promises, f,
initialValue)` resolves the outer input, then folds element-wise with
`Promise.reduceRight`. The form with an explicit initial value is
modelled. -/
def reduceRight_ (p : Fut (List (Fut V))) (f : V → V → Fut V)
    (init : Fut V) : Fut V :=
  when_ p (fun arr => promReduceRight arr f init)

/-- Source `function.js` lines 55-62: one invocation of the function
returned by the bound-argument `lift`. The closed-over `args` array is
shared across invocations and mutated in place by each one: `unshift`
puts `func` at the front, `push` appends the call arguments, and the
whole array is handed to `tryCall`, which takes its head as the function
to call and its tail as the arguments. Returns the updated closure state
together with the pair handed to `tryCall` (head, tail). -/
def liftInvoke {α : Type} (func : α) (args callArgs : List α) :
    List α × (α × List α) :=
  ((func :: args) ++ callArgs, (func, args ++ callArgs))

/-- Two successive invocations of the same function returned by the
bound-argument `lift` of `function.js`, starting from the bound-argument
list; yields the (function, arguments) pair each invocation hands to
`tryCall`. -/
def liftTwice {α : Type} (func : α) (bound c1 c2 : List α) :
    (α × List α) × (α × List α) :=
  let r1 := liftInvoke func bound c1
  let r2 := liftInvoke func r1.1 c2
  (r1.2, r2.2)

/-- Source `function.js` lines 81-95: the function returned by
`compose(f, ...funcs)`. It builds `firstPromise` by calling `f` through
`when.try` with the caller's `this` and arguments, then folds `funcs`
with `Promise.reduce`, the reducer piping the awaited accumulator into
the next stage invoked with the caller's `this`. The stages are bare
values in the folded array, hence fulfilled elements; each stage takes
the `this` binding and the piped argument and returns a future. -/
def composeApp (f : UserFn) (funcs : List (V → V → Fut V)) (thisArg : V)
    (args : List (Fut V)) : Fut V :=
  promReduce (funcs.map Fut.fulfilled) (fun arg func => func thisArg arg)
    (tryCall f thisArg args)

/-- The second argument position of `apply` as a host-language value: an
array of (possibly future) arguments, or any non-array value. -/
inductive ConcatArg where
  | arr (xs : List (Fut V))
  | scalar (x : Fut V)

/-- The host-language `concat` of a one-element array `[func]` with the
second argument of `apply`, with the unchanged head `func` stripped off
again by `tryCall`: an array argument contributes its elements, any
non-array value is appended as a single element. -/
def jsConcat : ConcatArg → List (Fut V)
  | .arr xs => xs
  | .scalar x => [x]

/-- Source `function.js` lines 37-41: `apply(func, promisedArgs)`
branches on the number of arguments passed: with one argument it calls
`tryCall` with `func` alone; with two it calls `tryCall` on
`[func].concat(promisedArgs)`. -/
def apply (func : UserFn) (thisArg : V) : Option ConcatArg → Fut V
  | none => tryCall func thisArg []
  | some pa => tryCall func thisArg (jsConcat pa)

/-- Dynamic values of the host language as far as truthiness and `then`
detection observe them: undefined, null, booleans, numbers, strings, and
objects (including functions), an object carrying whether its `then`
property is callable. -/
inductive JVal where
  | vundef
  | vnull
  | vbool (b : Bool)
  | vnum (n : Int)
  | vstr (s : String)
  | vobj (thenCallable : Bool)
deriving DecidableEq

/-- Host-language truthiness: undefined, null, false, zero and the empty
string are falsy; every other value is truthy. -/
def truthy : JVal → Bool
  | .vundef => false
  | .vnull => false
  | .vbool b => b
  | .vnum n => decide (n ≠ 0)
  | .vstr s => !s.isEmpty
  | .vobj _ => true

/-- Whether `typeof x.then` is the function type: only objects carrying a
callable `then` property qualify. -/
def hasCallableThen : JVal → Bool
  | .vobj b => b
  | _ => false

/-- Source `when.js` lines 260-262: `isPromiseLike(x)` returns the value
of the host-language expression `x && typeof x.then === strict-equal
function-type`: for a falsy `x` the conjunction short-circuits to `x`
itself, otherwise it yields the boolean of the `then` check. -/
def isPromiseLike (x : JVal) : JVal :=
  if truthy x then .vbool (hasCallableThen x) else x

/-- A settlement capability handed out by the future primitive: the
resolve, reject or notify capability of the promise identified by `pid`. -/
inductive Cap where
  | res (pid : Nat)
  | rej (pid : Nat)
  | prog (pid : Nat)
deriving DecidableEq

/-- The `resolver` record of a deferred, holding the three capability
fields; `none` stands for the initial void value. -/
structure ResolverRec where
  resolve : Option Cap
  reject : Option Cap
  notify : Option Cap
deriving DecidableEq

/-- The deferred object of `defer`: the paired promise (identified by its
id once assigned), the three top-level capability fields, and the nested
`resolver` record. `none` stands for the initial void value. -/
structure Deferred where
  promise : Option Nat
  resolve : Option Cap
  reject : Option Cap
  notify : Option Cap
  resolver : ResolverRec
deriving DecidableEq

/-- Source `when.js` lines 245-249: the `makeDeferred` resolver callback:
assigns each pending capability to both the top-level field and the
`resolver` field of the deferred under construction. -/
def makeDeferred (d : Deferred)
    (resolvePending rejectPending notifyPending : Cap) : Deferred :=
  ⟨d.promise, some resolvePending, some rejectPending, some notifyPending,
    ⟨some resolvePending, some rejectPending, some notifyPending⟩⟩

/-- The rejection reasons among a settlement-event sequence, in
settlement order. -/
def errReasons (l : List SEvt) : List V :=
  l.filterMap (fun e => match e with | .err r => some r | .ok _ => none)

/-- The fulfillment values among a settlement-event sequence, in
settlement order. -/
def okValues (l : List SEvt) : List V :=
  l.filterMap (fun e => match e with | .ok v => some v | .err _ => none)

/-- Source `when.js` lines 233-250: `defer()` builds the deferred with
void fields, constructs the promise, and returns the deferred. Modelled
from the spec for the part outside `src/`: the promise constructor
(`lib/Promise`) invokes its resolver callback synchronously at
construction with fresh resolve, reject and notify capabilities
permanently paired with the constructed promise; `pid` identifies that
promise, and its capabilities carry the same id. -/
def defer (pid : Nat) : Deferred :=
  let d0 : Deferred := ⟨none, none, none, none, ⟨none, none, none⟩⟩
  let d1 := makeDeferred d0 (Cap.res pid) (Cap.rej pid) (Cap.prog pid)
  ⟨some pid, d1.resolve, d1.reject, d1.notify, d1.resolver⟩

theorem futAll_map_fulfilled (xs : List V) :
    futAll (xs.map Fut.fulfilled) = .fulfilled xs := by
  induction xs with
  | nil => rfl
  | cons x rest ih => simp [futAll, ih, Fut.mapF, Fut.andThen]

theorem futAll_first_rejection (pre post : List (Fut V)) (r : V)
    (hpre : ∀ a ∈ pre, ∀ s, a ≠ Fut.rejected s) :
    futAll (pre ++ .rejected r :: post) = .rejected r := by
  induction pre with
  | nil => rfl
  | cons a rest ih =>
    have hrest : ∀ b ∈ rest, ∀ s, b ≠ Fut.rejected s := by
      intro b hb s
      exact hpre b (List.mem_cons_of_mem a hb) s
    have ih' := ih hrest
    cases a with
    | pending => simp [futAll, ih']
    | fulfilled v => simp [futAll, ih', Fut.mapF, Fut.andThen]
    | rejected s => exact absurd rfl (hpre (.rejected s) (List.mem_cons_self _ _) s)

/-- Claim C1: the code-level evaluation of the bound-argument `lift` of
`function.js` on two successive invocations. With `func` represented by
the atom `0`, bound arguments `[1]`, first call arguments `[2]` and
second call arguments `[3]`, the first invocation hands `tryCall` the
function and the arguments `[1, 2]` as the claim states, but the second
invocation hands it `[0, 1, 2, 3]` — the mutated closure array retains
the function value and the first call arguments — instead of the `[1, 3]`
the claim requires. -/
theorem lift_bound_args_second_call_eval :
    liftTwice 0 [1] [2] [3] = ((0, [1, 2]), (0, [0, 1, 2, 3])) := rfl

/-- Claim C2: for each of the combinators `all`, `any`, `some`, `settle`,
`map`, `reduce` and `reduceRight`, when the outer inputs argument is
itself a future rejected with reason `r`, the returned future rejects
with the same reason `r` and the element-wise logic is never consulted. -/
theorem combinators_propagate_outer_rejection (r : V)
    (mapFunc : V → Fut V) (f : V → V → Fut V) (init : Fut V)
    (howMany : Nat) :
    all_ (.rejected r) = .rejected r ∧
    any_ (.rejected r) = .rejected r ∧
    some_ (.rejected r) howMany = .rejected r ∧
    settle_ (.rejected r) = .rejected r ∧
    map_ (.rejected r) mapFunc = .rejected r ∧
    reduce_ (.rejected r) f init = .rejected r ∧
    reduceRight_ (.rejected r) f init = .rejected r :=
  ⟨rfl, rfl, rfl, rfl, rfl, rfl, rfl⟩

/-- Claim C8: `join` over any argument list, the empty list included, is
exactly `all` applied to those arguments collected into a sequence. -/
theorem join_is_all (args : List (Fut V)) :
    join args = all_ (.fulfilled args) := rfl

/-- Claim C9: `apply` branches on the number of arguments passed, not on
whether an argument array was supplied: with one argument `func` is
invoked with no arguments; with a second argument that is not an array —
a scalar, or the undefined value — the host `concat` appends that value
itself, so `func` is invoked with it as a single awaited argument. -/
theorem apply_branches_on_arity (func : UserFn) (thisArg : V) (x : V)
    (w : Fut V) :
    apply func thisArg none = exceptToFut (func thisArg []) ∧
    apply func thisArg (some (.scalar w)) = tryCall func thisArg [w] ∧
    apply func thisArg (some (.scalar (.fulfilled x)))
      = exceptToFut (func thisArg [x]) :=
  ⟨rfl, rfl, rfl⟩

/-- Claim C4: a user-supplied function that throws synchronously when
invoked through the lifting layer — via `call`/`try`, `apply`, `lift`, or
as the first stage of a `compose` pipeline — has its thrown value caught
and turned into the rejection reason of the returned future; no exception
propagates synchronously past the lifting boundary (every lifted
operation totally returns a future in this model). -/
theorem sync_throw_becomes_rejection (f : UserFn) (thisArg : V)
    (args : List (Fut V)) (vs : List V) (e : V)
    (hargs : futAll args = .fulfilled vs)
    (hf : f thisArg vs = .error e) :
    tryCall f thisArg args = .rejected e ∧
    apply f thisArg (some (.arr args)) = .rejected e ∧
    lift f thisArg args = .rejected e ∧
    composeApp f [] thisArg args = .rejected e := by
  have h : _apply f thisArg args = .rejected e := by
    unfold _apply
    rw [hargs]
    simp [Fut.andThen, exceptToFut, hf]
  refine ⟨h, h, h, ?_⟩
  simpa [composeApp, promReduce, tryCall] using h

theorem sync_throw_becomes_rejection_witness :
    futAll [Fut.fulfilled (V.atom 1)] = .fulfilled [V.atom 1] ∧
    (fun (_ : V) (_ : List V) => (Except.error (V.atom 7) : Except V V))
        (V.atom 0) [V.atom 1] = .error (V.atom 7) ∧
    tryCall (fun _ _ => Except.error (V.atom 7)) (V.atom 0)
        [Fut.fulfilled (V.atom 1)] = .rejected (V.atom 7) :=
  ⟨rfl, rfl,
    (sync_throw_becomes_rejection (fun _ _ => Except.error (V.atom 7))
      (V.atom 0) [Fut.fulfilled (V.atom 1)] [V.atom 1] (V.atom 7)
      rfl rfl).1⟩

/-- Claim C5: calling the lifted function `lift(fn)` on an argument list
in which some argument is a future rejected with reason `r` (and no
earlier argument is rejected) never invokes `fn` — the result is the same
for every function — and the returned future rejects with `r`. -/
theorem lift_rejected_arg_skips_func (f g : UserFn) (thisArg : V)
    (pre post : List (Fut V)) (r : V)
    (hpre : ∀ a ∈ pre, ∀ s, a ≠ Fut.rejected s) :
    lift f thisArg (pre ++ .rejected r :: post) = .rejected r ∧
    lift f thisArg (pre ++ .rejected r :: post)
      = lift g thisArg (pre ++ .rejected r :: post) := by
  have h := futAll_first_rejection pre post r hpre
  constructor
  · unfold lift _apply
    rw [h]
    rfl
  · unfold lift _apply
    rw [h]
    rfl

theorem lift_rejected_arg_skips_func_witness :
    (∀ a ∈ ([Fut.fulfilled (V.atom 1)] : List (Fut V)), ∀ s,
      a ≠ Fut.rejected s) ∧
    lift (fun _ _ => Except.ok (V.atom 0)) (V.atom 0)
        [Fut.fulfilled (V.atom 1), Fut.rejected (V.atom 9)]
      = .rejected (V.atom 9) :=
  have hpre : ∀ a ∈ ([Fut.fulfilled (V.atom 1)] : List (Fut V)), ∀ s,
      a ≠ Fut.rejected s := by
    intro a ha s h
    rw [List.mem_singleton] at ha
    rw [ha] at h
    exact Fut.noConfusion h
  ⟨hpre,
    (lift_rejected_arg_skips_func (fun _ _ => Except.ok (V.atom 0))
      (fun _ _ => Except.ok (V.atom 0)) (V.atom 0)
      [Fut.fulfilled (V.atom 1)] [] (V.atom 9) hpre).1⟩

/-- Claim C7, counterexample: `isPromiseLike(null)` evaluates to `null`
itself — the short-circuited left operand of the host conjunction — which
is not the boolean `false` the claim requires. -/
theorem isPromiseLike_null_counterexample :
    isPromiseLike JVal.vnull = JVal.vnull ∧
    JVal.vnull ≠ JVal.vbool false :=
  ⟨rfl, by decide⟩

/-- Claim C7 as amended: `isPromiseLike(x)` returns the boolean `true`
exactly for a truthy `x` whose `then` property is callable; for a truthy
`x` without one it returns the boolean `false`, and for a falsy `x` —
null and undefined included — it returns `x` itself, a falsy value rather
than the boolean `false`. -/
theorem isPromiseLike_amended (x : JVal) :
    truthy (isPromiseLike x) = (truthy x && hasCallableThen x) ∧
    (truthy x = true → isPromiseLike x = JVal.vbool (hasCallableThen x)) ∧
    (truthy x = false → isPromiseLike x = x) := by
  by_cases h : truthy x = true
  · refine ⟨?_, fun _ => ?_, fun hf => ?_⟩
    · unfold isPromiseLike
      rw [if_pos h, h, Bool.true_and]
      rfl
    · unfold isPromiseLike
      rw [if_pos h]
    · rw [h] at hf
      exact absurd hf (by simp)
  · have hf : truthy x = false := by
      revert h
      cases truthy x <;> simp
    refine ⟨?_, fun ht => ?_, fun _ => ?_⟩
    · unfold isPromiseLike
      rw [if_neg h, hf, Bool.false_and]
    · rw [hf] at ht
      exact absurd ht (by simp)
    · unfold isPromiseLike
      rw [if_neg h]

theorem isPromiseLike_amended_witness :
    truthy JVal.vnull = false ∧ isPromiseLike JVal.vnull = JVal.vnull :=
  ⟨rfl, (isPromiseLike_amended JVal.vnull).2.2 rfl⟩

/-- Claim C10: every call of `defer` yields a fresh deferred — distinct
calls never share it — whose resolve, reject and notify fields are all
assigned (with the capabilities of its own promise, hence permanently
paired with it) before `defer` returns, and whose top-level capability
fields are identical to the corresponding fields of its `resolver`
record. -/
theorem defer_fresh_pairing (p q : Nat) :
    (defer p).resolve = some (Cap.res p) ∧
    (defer p).reject = some (Cap.rej p) ∧
    (defer p).notify = some (Cap.prog p) ∧
    (defer p).resolve = (defer p).resolver.resolve ∧
    (defer p).reject = (defer p).resolver.reject ∧
    (defer p).notify = (defer p).resolver.notify ∧
    (defer p).promise = some p ∧
    (p ≠ q → defer p ≠ defer q) := by
  refine ⟨rfl, rfl, rfl, rfl, rfl, rfl, rfl, fun hpq hd => ?_⟩
  apply hpq
  have h := congrArg Deferred.promise hd
  simpa [defer] using h

theorem defer_fresh_pairing_witness :
    (0 : Nat) ≠ 1 ∧ defer 0 ≠ defer 1 :=
  ⟨by decide,
    (defer_fresh_pairing 0 1).2.2.2.2.2.2.2 (by decide)⟩

theorem promReduce_rejected {β : Type} (arr : List (Fut β))
    (f : V → β → Fut V) (r : V) :
    promReduce arr f (.rejected r) = .rejected r := by
  induction arr with
  | nil => rfl
  | cons b rest ih =>
    have h : promReduce (b :: rest) f (.rejected r)
        = promReduce rest f (.rejected r) := rfl
    rw [h, ih]

theorem promReduce_pure_stages (gs : List (V → V)) (thisArg : V) :
    ∀ a : V,
    promReduce ((gs.map (fun g (_ : V) (v : V) => Fut.fulfilled (g v))).map
        Fut.fulfilled)
      (fun arg func => func thisArg arg) (.fulfilled a)
      = .fulfilled (gs.foldl (fun x g => g x) a) := by
  induction gs with
  | nil => intro a; rfl
  | cons g rest ih => intro a; exact ih (g a)

theorem promReduce_stage_failure (pre : List (V → V)) (r : V)
    (post : List (V → V → Fut V)) (thisArg : V) :
    ∀ a : V,
    promReduce (((pre.map (fun g (_ : V) (v : V) => Fut.fulfilled (g v)))
        ++ (fun _ _ => Fut.rejected r) :: post).map Fut.fulfilled)
      (fun arg func => func thisArg arg) (.fulfilled a) = .rejected r := by
  induction pre with
  | nil => intro a; exact promReduce_rejected (post.map Fut.fulfilled) _ r
  | cons g rest ih => intro a; exact ih (g a)

/-- Claim C6: the function returned by `compose(f, ...funcs)` awaits its
arguments, invokes `f`, and pipes each awaited stage result into the next
stage strictly left to right, so that with synchronous successful stages
it computes the left-to-right fold of the stage functions over the result
of `f`; when a stage fails with reason `r`, the result rejects with `r`
and the stages after it are never invoked (the result is the same
whatever they are); and when `f` itself throws, no stage at all is
invoked. -/
theorem compose_pipeline_spec (thisArg : V) (xs : List V) :
    (∀ (pf : List V → V) (gs : List (V → V)),
      composeApp (fun _ vs => Except.ok (pf vs))
          (gs.map (fun g (_ : V) (v : V) => Fut.fulfilled (g v))) thisArg
          (xs.map Fut.fulfilled)
        = .fulfilled (gs.foldl (fun a g => g a) (pf xs))) ∧
    (∀ (pf : List V → V) (pre : List (V → V)) (r : V)
        (post post' : List (V → V → Fut V)),
      composeApp (fun _ vs => Except.ok (pf vs))
          (pre.map (fun g (_ : V) (v : V) => Fut.fulfilled (g v))
            ++ (fun _ _ => Fut.rejected r) :: post) thisArg
          (xs.map Fut.fulfilled) = .rejected r ∧
      composeApp (fun _ vs => Except.ok (pf vs))
          (pre.map (fun g (_ : V) (v : V) => Fut.fulfilled (g v))
            ++ (fun _ _ => Fut.rejected r) :: post) thisArg
          (xs.map Fut.fulfilled)
        = composeApp (fun _ vs => Except.ok (pf vs))
            (pre.map (fun g (_ : V) (v : V) => Fut.fulfilled (g v))
              ++ (fun _ _ => Fut.rejected r) :: post') thisArg
            (xs.map Fut.fulfilled)) ∧
    (∀ (e : V) (gs gs' : List (V → V → Fut V)),
      composeApp (fun _ _ => Except.error e) gs thisArg
          (xs.map Fut.fulfilled) = .rejected e ∧
      composeApp (fun _ _ => Except.error e) gs thisArg
          (xs.map Fut.fulfilled)
        = composeApp (fun _ _ => Except.error e) gs' thisArg
            (xs.map Fut.fulfilled)) := by
  refine ⟨fun pf gs => ?_, fun pf pre r post post' => ?_,
    fun e gs gs' => ?_⟩
  · have hinit : tryCall (fun _ vs => Except.ok (pf vs)) thisArg
        (xs.map Fut.fulfilled) = .fulfilled (pf xs) := by
      unfold tryCall _apply
      rw [futAll_map_fulfilled]
      rfl
    unfold composeApp
    rw [hinit]
    exact promReduce_pure_stages gs thisArg (pf xs)
  · have hinit : tryCall (fun _ vs => Except.ok (pf vs)) thisArg
        (xs.map Fut.fulfilled) = .fulfilled (pf xs) := by
      unfold tryCall _apply
      rw [futAll_map_fulfilled]
      rfl
    have h1 := promReduce_stage_failure pre r post thisArg (pf xs)
    have h2 := promReduce_stage_failure pre r post' thisArg (pf xs)
    constructor
    · unfold composeApp
      rw [hinit]
      exact h1
    · unfold composeApp
      rw [hinit, h1, h2]
  · have hinit : tryCall (fun (_ : V) (_ : List V) =>
        (Except.error e : Except V V)) thisArg (xs.map Fut.fulfilled)
        = .rejected e := by
      unfold tryCall _apply
      rw [futAll_map_fulfilled]
      rfl
    have h1 := promReduce_rejected (gs.map Fut.fulfilled)
      (fun arg func => func thisArg arg) e
    have h2 := promReduce_rejected (gs'.map Fut.fulfilled)
      (fun arg func => func thisArg arg) e
    constructor
    · unfold composeApp
      rw [hinit]
      exact h1
    · unfold composeApp
      rw [hinit, h1, h2]

theorem errReasons_ok (v : V) (rest : List SEvt) :
    errReasons (.ok v :: rest) = errReasons rest := by
  simp [errReasons]

theorem errReasons_err (r : V) (rest : List SEvt) :
    errReasons (.err r :: rest) = r :: errReasons rest := by
  simp [errReasons]

theorem okValues_ok (v : V) (rest : List SEvt) :
    okValues (.ok v :: rest) = v :: okValues rest := by
  simp [okValues]

theorem okValues_err (r : V) (rest : List SEvt) :
    okValues (.err r :: rest) = okValues rest := by
  simp [okValues]

theorem errReasons_length_le (l : List SEvt) :
    (errReasons l).length ≤ l.length :=
  List.length_filterMap_le _ l

theorem okValues_length_le (l : List SEvt) :
    (okValues l).length ≤ l.length :=
  List.length_filterMap_le _ l

theorem someGo_not_rej (hm thr : Nat) :
    ∀ (l : List SEvt) (vals errs : List V),
      errs.length + (errReasons l).length < thr →
      ∀ rs, someGo hm thr l vals errs ≠ .rej rs := by
  intro l
  induction l with
  | nil =>
    intro vals errs _ rs h
    exact SomeRes.noConfusion h
  | cons e rest ih =>
    intro vals errs hlt rs h
    cases e with
    | ok v =>
      rw [errReasons_ok] at hlt
      simp only [someGo] at h
      by_cases hc : vals.length + 1 = hm
      · rw [if_pos hc] at h
        exact SomeRes.noConfusion h
      · rw [if_neg hc] at h
        exact ih (vals ++ [v]) errs hlt rs h
    | err r =>
      rw [errReasons_err] at hlt
      simp only [List.length_cons] at hlt
      simp only [someGo] at h
      have h1 : errs.length + 1 ≠ thr := by omega
      rw [if_neg h1] at h
      refine ih vals (errs ++ [r]) ?_ rs h
      simp only [List.length_append, List.length_cons, List.length_nil]
      omega

theorem someGo_complete (hm thr : Nat) :
    ∀ (l : List SEvt) (vals errs : List V),
      vals.length < hm → errs.length < thr →
      (hm - vals.length) + (thr - errs.length) = l.length + 1 →
      someGo hm thr l vals errs =
        if thr ≤ errs.length + (errReasons l).length
        then .rej (errs ++ (errReasons l).take (thr - errs.length))
        else .ful (vals ++ (okValues l).take (hm - vals.length)) := by
  intro l
  induction l with
  | nil =>
    intro vals errs h1 h2 h3
    simp only [List.length_nil] at h3
    omega
  | cons e rest ih =>
    intro vals errs h1 h2 h3
    simp only [List.length_cons] at h3
    cases e with
    | ok v =>
      rw [errReasons_ok, okValues_ok]
      by_cases hc : vals.length + 1 = hm
      · have hgo : someGo hm thr (.ok v :: rest) vals errs
            = .ful (vals ++ [v]) := by
          simp only [someGo, if_pos hc]
        have hlen := errReasons_length_le rest
        have hcond : ¬ (thr ≤ errs.length + (errReasons rest).length) := by
          omega
        rw [hgo, if_neg hcond]
        have h4 : hm - vals.length = 1 := by omega
        rw [h4]
        rfl
      · have hgo : someGo hm thr (.ok v :: rest) vals errs
            = someGo hm thr rest (vals ++ [v]) errs := by
          simp only [someGo, if_neg hc]
        have hlen1 : (vals ++ [v]).length = vals.length + 1 := by
          simp
        have ih' := ih (vals ++ [v]) errs (by omega) h2 (by omega)
        rw [hgo, ih', hlen1]
        by_cases hcond : thr ≤ errs.length + (errReasons rest).length
        · rw [if_pos hcond, if_pos hcond]
        · rw [if_neg hcond, if_neg hcond]
          have h5 : hm - vals.length = (hm - (vals.length + 1)) + 1 := by
            omega
          rw [h5, List.take_succ_cons, List.append_assoc,
            List.singleton_append]
    | err r =>
      rw [errReasons_err, okValues_err]
      by_cases hc : errs.length + 1 = thr
      · have hgo : someGo hm thr (.err r :: rest) vals errs
            = .rej (errs ++ [r]) := by
          simp only [someGo, if_pos hc]
        have hcond : thr ≤ errs.length + (r :: errReasons rest).length := by
          simp only [List.length_cons]
          omega
        rw [hgo, if_pos hcond]
        have h4 : thr - errs.length = 1 := by omega
        rw [h4]
        rfl
      · have hgo : someGo hm thr (.err r :: rest) vals errs
            = someGo hm thr rest vals (errs ++ [r]) := by
          simp only [someGo, if_neg hc]
        have hlen1 : (errs ++ [r]).length = errs.length + 1 := by
          simp
        have ih' := ih vals (errs ++ [r]) h1 (by omega) (by omega)
        rw [hgo, ih', hlen1]
        simp only [List.length_cons]
        by_cases hcond : thr ≤ errs.length + 1 + (errReasons rest).length
        · rw [if_pos hcond, if_pos (by omega)]
          have h5 : thr - errs.length = (thr - (errs.length + 1)) + 1 := by
            omega
          rw [h5, List.take_succ_cons, List.append_assoc,
            List.singleton_append]
        · rw [if_neg hcond, if_neg (by omega)]

/-- Claim C3: with `0 < howMany` at most the input length `N`, the race
of `some` over the settlement events of its inputs rejects exactly when
the number of rejections reaches `(N - howMany) + 1`: when the events
carry at least that many rejections the result rejects with precisely the
ordered sequence of the first `(N - howMany) + 1` rejection reasons in
settlement order; with fewer rejections it never rejects; and on any
prefix of the events in which the rejection count has not yet reached the
threshold, the race has not rejected. -/
theorem some_rejects_exactly_at_threshold (events : List SEvt)
    (howMany : Nat) (h1 : 0 < howMany) (h2 : howMany ≤ events.length) :
    (events.length - howMany + 1 ≤ (errReasons events).length →
      some_ (.fulfilled events) howMany
        = .rejected (V.list ((errReasons events).take
            (events.length - howMany + 1)))) ∧
    ((errReasons events).length < events.length - howMany + 1 →
      ∀ rs, some_ (.fulfilled events) howMany ≠ .rejected rs) ∧
    (∀ p q, events = p ++ q →
      (errReasons p).length < events.length - howMany + 1 →
      ∀ rs, someGo howMany (events.length - howMany + 1) p [] []
        ≠ .rej rs) := by
  have hne : ¬ (howMany = 0) := by omega
  have hrun : some_ (.fulfilled events) howMany
      = someResToFut (someGo howMany (events.length - howMany + 1)
          events [] []) := by
    show someResToFut (someRun events howMany) = _
    unfold someRun
    rw [if_neg hne]
  have hmain := someGo_complete howMany (events.length - howMany + 1)
    events [] [] (by simpa using h1) (by simp) (by simp; omega)
  simp only [List.length_nil, Nat.zero_add, Nat.sub_zero,
    List.nil_append] at hmain
  refine ⟨fun hge => ?_, fun hlt rs h => ?_, fun p q hpq hlt rs => ?_⟩
  · rw [hrun, hmain, if_pos hge]
    rfl
  · rw [hrun, hmain, if_neg (by omega)] at h
    exact Fut.noConfusion h
  · exact someGo_not_rej howMany (events.length - howMany + 1) p [] []
      (by simpa using hlt) rs

theorem some_rejects_exactly_at_threshold_witness :
    0 < 2 ∧
    2 ≤ ([SEvt.err (V.atom 1), SEvt.err (V.atom 2)] : List SEvt).length ∧
    some_ (.fulfilled [SEvt.err (V.atom 1), SEvt.err (V.atom 2)]) 2
      = .rejected (V.list [V.atom 1]) :=
  ⟨by decide, by decide,
    (some_rejects_exactly_at_threshold
      [SEvt.err (V.atom 1), SEvt.err (V.atom 2)] 2
      (by decide) (by decide)).1 (by decide)⟩

end When
